import Mathlib

/-!
Verification of the oligoscreen differential screening engine.

The screening orchestrator (`src/analysis/screener.rs`) and the viewer-side
recomputation (`src/app.rs`) are embedded shallowly below.  The pairwise
matcher (`collect_matches_with_aligner`, `collect_mismatch_counts_with_aligner`)
and the variant-consensus analyzer (`analyze_sequences`) live in modules that
are not part of the reviewed sources; they are abstracted as function
parameters, so every theorem quantifies over their possible outputs.
Rust `f64` percentages are modelled as rationals (`ℚ`); `u32` mismatch counts
are modelled as `Nat` with the sentinel `u32::MAX = 4294967295` explicit.
-/

/-- One variant row of a `WindowAnalysisResult` (struct `Variant` in
`types.rs`, fields as used by `screener.rs` and `app.rs`):
a representative sequence, the number of matched references it covers, and
its coverage percentage. -/
structure Variant where
  sequence : String
  count : Nat
  percentage : ℚ
deriving DecidableEq

/-- Result of analysing one window (struct `WindowAnalysisResult`), with the
fields read and written by `screener.rs` / `app.rs`. -/
structure WindowAnalysisResult where
  total_sequences : Nat
  sequences_analyzed : Nat
  no_match_count : Nat
  skipped : Bool
  skip_reason : Option String
  variants : List Variant
  variants_for_threshold : Nat
  coverage_at_threshold : ℚ
deriving DecidableEq

/-- `Default::default()` for `WindowAnalysisResult` (derived `Default` in
Rust: numeric fields zero, flags false, collections empty). -/
def WindowAnalysisResult.base : WindowAnalysisResult :=
  { total_sequences := 0
    sequences_analyzed := 0
    no_match_count := 0
    skipped := false
    skip_reason := none
    variants := []
    variants_for_threshold := 0
    coverage_at_threshold := 0 }

instance : Inhabited WindowAnalysisResult := ⟨WindowAnalysisResult.base⟩

/-- One histogram bucket of an exclusivity result (struct `MismatchBucket`). -/
structure MismatchBucket where
  mismatches : Nat
  count : Nat
  example_name : String
deriving DecidableEq

/-- Result of the exclusivity scoring of one window
(struct `ExclusivityResult`). -/
structure ExclusivityResult where
  total_sequences : Nat
  no_match_count : Nat
  mismatch_histogram : List MismatchBucket
  min_mismatches : Option Nat
deriving DecidableEq

/-- Per-position result (struct `PositionResult`). -/
structure PositionResult where
  position : Nat
  variants_needed : Nat
  analysis : WindowAnalysisResult
  exclusivity : Option ExclusivityResult
deriving DecidableEq

/-- Per-length result (struct `LengthResult`). -/
structure LengthResult where
  oligo_length : Nat
  positions : List PositionResult
deriving DecidableEq

/-- Progress event (struct `ProgressUpdate`), built in `analyze_length`. -/
structure ProgressUpdate where
  current_length : Nat
  current_position : Nat
  total_positions : Nat
  lengths_completed : Nat
  total_lengths : Nat
  message : String
deriving DecidableEq

/-- `u32::MAX`, the sentinel bucket key of the exclusivity histogram. -/
def u32Max : Nat := 4294967295

/-- `screener.rs` lines 115-119: the largest start position for a window of
`length` bases in a template of `templateLen` bases. -/
def maxStart (templateLen length : Nat) : Nat :=
  if templateLen ≥ length then templateLen - length else 0

/-- Iterator semantics of Rust `(0..=maxS).step_by(step)`: starting from
`cur`, emit `cur` and advance by `step` while `cur ≤ maxS`.  The fuel
argument bounds the recursion; `positionsFor` supplies enough fuel for any
positive step. -/
def posGo (step : Nat) : Nat → Nat → Nat → List Nat
  | 0, _, _ => []
  | fuel + 1, cur, maxS =>
      if cur ≤ maxS then cur :: posGo step fuel (cur + step) maxS else []

/-- `screener.rs` line 121: `(0..=max_start).step_by(resolution).collect()`. -/
def positionsFor (maxS step : Nat) : List Nat :=
  posGo step (maxS + 1) 0 maxS

/-- Rust slice `&bytes[position..position + length]`
(`screener.rs` lines 213 and 287).  Rust panics when the end index exceeds
the length; the panic is modelled as `none`. -/
def listSlice (bytes : List Nat) (position length : Nat) : Option (List Nat) :=
  if position + length ≤ bytes.length then
    some ((bytes.drop position).take length)
  else
    none

/-- The cumulative-threshold loop shared by `analyze_window`
(`screener.rs` lines 253-269) and `recalculate_coverage_threshold`
(`app.rs` lines 242-254): walk the variants accumulating percentages; on the
first prefix whose cumulative percentage reaches the threshold return its
length and cumulative value (the `break`); if the walk ends without a break
the needed count stays at the full length and the coverage is the final
cumulative sum (the trailing `if cumulative < threshold`). -/
def thresholdWalkGo (threshold : ℚ) (total : Nat) :
    List Variant → Nat → ℚ → Nat × ℚ
  | [], _, cumulative => (total, cumulative)
  | v :: rest, i, cumulative =>
      if threshold ≤ cumulative + v.percentage then (i + 1, cumulative + v.percentage)
      else thresholdWalkGo threshold total rest (i + 1) (cumulative + v.percentage)

/-- Entry point of the cumulative-threshold loop: `cumulative = 0.0`,
`new_variants_needed = variants.len()`, index starting at 0. -/
def thresholdWalk (variants : List Variant) (threshold : ℚ) : Nat × ℚ :=
  thresholdWalkGo threshold variants.length variants 0 0

/-- `screener.rs` lines 249-252: rescale each variant percentage to
`(count / total_refs) * 100`. -/
def rescaleVariants (variants : List Variant) (totalRefs : Nat) : List Variant :=
  variants.map (fun v => { v with percentage := (v.count : ℚ) / (totalRefs : ℚ) * 100 })

/-- `screener.rs` lines 221-228: the fabricated result for a window with no
matched reference (remaining fields from `Default::default()`). -/
def skippedWindowResult (totalRefs noMatchCount : Nat) : WindowAnalysisResult :=
  { WindowAnalysisResult.base with
    total_sequences := totalRefs
    sequences_analyzed := 0
    no_match_count := noMatchCount
    skipped := true
    skip_reason := some "No valid matches found in any reference sequence" }

/-- `analyze_window` (`screener.rs` lines 204-273).  `matcher` abstracts
`collect_matches_with_aligner` (module `pairwise`, outside the reviewed
sources): applied to the extracted oligo it yields the matched substrings
and the no-match count.  `analyzer` abstracts `analyze_sequences` (module
`analyzer`, outside the reviewed sources).  The out-of-bounds slice panic is
modelled as `none`. -/
def analyze_window (matcher : List Nat → List String × Nat)
    (analyzer : List String → WindowAnalysisResult)
    (templateBytes : List Nat) (refCount : Nat) (coverageThreshold : ℚ)
    (position length : Nat) : Option WindowAnalysisResult :=
  match listSlice templateBytes position length with
  | none => none
  | some oligo =>
      let m := matcher oligo
      let matchedSequences := m.1
      let noMatchCount := m.2
      if matchedSequences.isEmpty then
        some (skippedWindowResult refCount noMatchCount)
      else
        let r0 := analyzer matchedSequences
        let r1 := { r0 with
                    total_sequences := refCount
                    sequences_analyzed := matchedSequences.length
                    no_match_count := noMatchCount }
        if matchedSequences.length < refCount then
          let vs := rescaleVariants r1.variants refCount
          let w := thresholdWalk vs coverageThreshold
          some { r1 with
                 variants := vs
                 variants_for_threshold := w.1
                 coverage_at_threshold := w.2 }
        else
          some r1

/-- Per-position body of `recalculate_coverage_threshold`
(`app.rs` lines 238-258): skipped windows are left untouched, otherwise the
cumulative-threshold loop is re-run on the stored percentages and both
`analysis.variants_for_threshold` / `analysis.coverage_at_threshold` and the
duplicated `variants_needed` are rewritten. -/
def recalcWindow (threshold : ℚ) (pr : PositionResult) : PositionResult :=
  if pr.analysis.skipped then pr
  else
    let w := thresholdWalk pr.analysis.variants threshold
    { pr with
      analysis := { pr.analysis with
                    variants_for_threshold := w.1
                    coverage_at_threshold := w.2 }
      variants_needed := w.1 }

/-- `recalculate_coverage_threshold` (`app.rs` lines 231-261), applied to
every position of every length result of the stored screening results. -/
def recalculate_coverage_threshold (threshold : ℚ)
    (results : List LengthResult) : List LengthResult :=
  results.map (fun lr => { lr with positions := lr.positions.map (recalcWindow threshold) })

/-- Cumulative percentage of the first `k` variants (specification side). -/
def cumPct (vs : List Variant) (k : Nat) : ℚ :=
  ((vs.take k).map Variant.percentage).sum

/-- Specification of the minimal covering prefix: `k` is the smallest prefix
length whose cumulative percentage reaches `threshold`, or the full length
when no prefix reaches it, and `cov` is the cumulative percentage of that
prefix. -/
def MinCover (threshold : ℚ) (vs : List Variant) (k : Nat) (cov : ℚ) : Prop :=
  k ≤ vs.length ∧ (∀ j, j < k → cumPct vs j < threshold) ∧
    (threshold ≤ cumPct vs k ∨ k = vs.length) ∧ cov = cumPct vs k

theorem posGo_mem (step : Nat) (hstep : 0 < step) :
    ∀ (fuel cur maxS p : Nat), maxS + 1 ≤ cur + fuel →
      (p ∈ posGo step fuel cur maxS ↔ ∃ k, p = cur + k * step ∧ p ≤ maxS) := by
  intro fuel
  induction fuel with
  | zero =>
      intro cur maxS p h
      simp only [posGo, List.not_mem_nil, false_iff]
      rintro ⟨k, rfl, hle⟩
      have : cur ≤ cur + k * step := Nat.le_add_right _ _
      omega
  | succ n ih =>
      intro cur maxS p h
      simp only [posGo]
      by_cases hc : cur ≤ maxS
      · rw [if_pos hc, List.mem_cons, ih (cur + step) maxS p (by omega)]
        constructor
        · rintro (rfl | ⟨k, rfl, hk⟩)
          · exact ⟨0, by simp, hc⟩
          · exact ⟨k + 1, by ring, hk⟩
        · rintro ⟨k, rfl, hk⟩
          cases k with
          | zero => left; simp
          | succ k => right; exact ⟨k, by ring, hk⟩
      · rw [if_neg hc]
        simp only [List.not_mem_nil, false_iff]
        rintro ⟨k, rfl, hle⟩
        have : cur ≤ cur + k * step := Nat.le_add_right _ _
        omega

/-- Claim C2: for every template length `L`, oligo length `ell` and positive
step, the evaluated position set is exactly the multiples of the step inside
`[0, max(L - ell, 0)]`; in particular when `L < ell` the position list is the
single degenerate position `0`. -/
theorem c2_positions_step_multiples (L ell step : Nat) (hstep : 0 < step) :
    (∀ p, p ∈ positionsFor (maxStart L ell) step ↔
      (step ∣ p ∧ p ≤ maxStart L ell)) ∧
    ((maxStart L ell : ℤ) = max ((L : ℤ) - (ell : ℤ)) 0) ∧
    (L < ell → positionsFor (maxStart L ell) step = [0]) := by
  refine ⟨?_, ?_, ?_⟩
  · intro p
    rw [positionsFor, posGo_mem step hstep (maxStart L ell + 1) 0 (maxStart L ell) p (by omega)]
    constructor
    · rintro ⟨k, rfl, hk⟩
      exact ⟨⟨k, by ring⟩, hk⟩
    · rintro ⟨⟨k, rfl⟩, hk⟩
      exact ⟨k, by ring, hk⟩
  · rw [maxStart]
    split <;> omega
  · intro hlt
    have h0 : maxStart L ell = 0 := by rw [maxStart, if_neg (by omega)]
    rw [h0]
    simp [positionsFor, posGo]

/-- Witness for C2 at the degenerate input `L = 4 < 10 = ell`, `step = 2`. -/
theorem c2_witness : positionsFor (maxStart 4 10) 2 = [0] :=
  (c2_positions_step_multiples 4 10 2 (by decide)).2.2 (by decide)

theorem cumPct_nil_k (k : Nat) : cumPct [] k = 0 := by
  simp [cumPct]

theorem cumPct_zero (vs : List Variant) : cumPct vs 0 = 0 := by
  simp [cumPct]

theorem drop_cons_lt {α : Type} {l : List α} {i : Nat} {a : α} {rest : List α}
    (h : l.drop i = a :: rest) : i < l.length := by
  by_contra h'
  rw [List.drop_eq_nil_of_le (by omega)] at h
  exact List.cons_ne_nil a rest h.symm

theorem drop_cons_succ {α : Type} {l : List α} {i : Nat} {a : α} {rest : List α}
    (h : l.drop i = a :: rest) : l.drop (i + 1) = rest := by
  rw [← List.tail_drop, h]
  rfl

theorem cumPct_drop_cons :
    ∀ (vs : List Variant) (i : Nat) (v : Variant) (rest : List Variant),
      vs.drop i = v :: rest → cumPct vs (i + 1) = cumPct vs i + v.percentage := by
  intro vs
  induction vs with
  | nil => intro i v rest h; simp at h
  | cons a as ih =>
      intro i v rest h
      cases i with
      | zero =>
          rw [List.drop_zero] at h
          obtain ⟨rfl, rfl⟩ := List.cons.inj h
          simp [cumPct]
      | succ i =>
          rw [List.drop_succ_cons] at h
          have := ih i v rest h
          simp only [cumPct, List.take_succ_cons, List.map_cons, List.sum_cons] at this ⊢
          rw [add_assoc, ← this]

theorem thresholdWalkGo_spec (threshold : ℚ) (vs : List Variant) :
    ∀ (rest : List Variant) (i k : Nat) (cov : ℚ),
      vs.drop i = rest → i ≤ vs.length →
      thresholdWalkGo threshold vs.length rest i (cumPct vs i) = (k, cov) →
      i ≤ k ∧ k ≤ vs.length ∧ (∀ j, i < j → j < k → cumPct vs j < threshold) ∧
        (threshold ≤ cumPct vs k ∨ k = vs.length) ∧ cov = cumPct vs k := by
  intro rest
  induction rest generalizing vs with
  | nil =>
      intro i k cov hdrop hi heq
      have hlen : vs.length - i = 0 := by
        have := congrArg List.length hdrop
        simpa using this
      have hieq : i = vs.length := by omega
      simp only [thresholdWalkGo, Prod.mk.injEq] at heq
      obtain ⟨rfl, rfl⟩ := heq
      subst hieq
      exact ⟨le_refl _, le_refl _, fun j h1 h2 => absurd (h1.trans h2) (lt_irrefl _),
        Or.inr rfl, rfl⟩
  | cons v rest ih =>
      intro i k cov hdrop hi heq
      have hlt : i < vs.length := drop_cons_lt hdrop
      have hdrop' : vs.drop (i + 1) = rest := drop_cons_succ hdrop
      have hcum : cumPct vs (i + 1) = cumPct vs i + v.percentage :=
        cumPct_drop_cons vs i v rest hdrop
      simp only [thresholdWalkGo] at heq
      by_cases hthr : threshold ≤ cumPct vs i + v.percentage
      · rw [if_pos hthr] at heq
        obtain ⟨rfl, rfl⟩ := Prod.mk.injEq .. |>.mp heq
        refine ⟨by omega, by omega, fun j h1 h2 => ((by omega : False)).elim, Or.inl ?_, hcum.symm⟩
        rw [hcum]; exact hthr
      · rw [if_neg hthr] at heq
        rw [← hcum] at heq
        obtain ⟨h1, h2, h3, h4, h5⟩ := ih vs (i + 1) k cov hdrop' (by omega) heq
        refine ⟨by omega, h2, ?_, h4, h5⟩
        intro j hij hjk
        rcases Nat.lt_or_ge j (i + 1) with hj | hj
        · omega
        · rcases Nat.eq_or_lt_of_le hj with rfl | hj'
          · rw [hcum]; exact lt_of_not_le hthr
          · exact h3 j hj' hjk

theorem thresholdWalk_spec (vs : List Variant) (threshold : ℚ) (h : 0 < threshold) :
    MinCover threshold vs (thresholdWalk vs threshold).1 (thresholdWalk vs threshold).2 := by
  have heq : thresholdWalkGo threshold vs.length vs 0 (cumPct vs 0) =
      ((thresholdWalk vs threshold).1, (thresholdWalk vs threshold).2) := by
    rw [cumPct_zero]; rfl
  obtain ⟨h1, h2, h3, h4, h5⟩ :=
    thresholdWalkGo_spec threshold vs vs 0 (thresholdWalk vs threshold).1
      (thresholdWalk vs threshold).2 (by simp) (by omega) heq
  refine ⟨h2, ?_, h4, h5⟩
  intro j hj
  cases j with
  | zero => rw [cumPct_zero]; exact h
  | succ j => exact h3 (j + 1) (by omega) hj

/-- Claim C1: for a non-skipped window, `variants_for_threshold` is the
smallest prefix length whose cumulative percentage reaches the coverage
threshold (or the full variants length when unreachable) and
`coverage_at_threshold` is the cumulative percentage of that prefix, both
after the orchestrator's post-rescale computation in `analyze_window`
(the branch taken when some references did not match) and after the
viewer-side recomputation `recalculate_coverage_threshold`. -/
theorem c1_minimal_covering :
    (∀ (matcher : List Nat → List String × Nat)
        (analyzer : List String → WindowAnalysisResult)
        (templateBytes : List Nat) (refCount : Nat) (threshold : ℚ)
        (position length : Nat) (r : WindowAnalysisResult),
        0 < threshold →
        analyze_window matcher analyzer templateBytes refCount threshold position length =
          some r →
        r.sequences_analyzed ≠ 0 →
        r.sequences_analyzed < r.total_sequences →
        MinCover threshold r.variants r.variants_for_threshold r.coverage_at_threshold) ∧
    (∀ (threshold : ℚ) (pr : PositionResult),
        0 < threshold → pr.analysis.skipped = false →
        MinCover threshold (recalcWindow threshold pr).analysis.variants
          (recalcWindow threshold pr).analysis.variants_for_threshold
          (recalcWindow threshold pr).analysis.coverage_at_threshold) := by
  constructor
  · intro matcher analyzer templateBytes refCount threshold position length r
      hthr heq hne hlt
    cases hs : listSlice templateBytes position length with
    | none => rw [analyze_window, hs] at heq; exact absurd heq (by simp)
    | some oligo =>
        rw [analyze_window, hs] at heq
        simp only [] at heq
        by_cases hempty : (matcher oligo).1.isEmpty
        · rw [if_pos hempty, Option.some.injEq] at heq
          rw [← heq] at hne
          exact absurd rfl hne
        · rw [if_neg hempty] at heq
          by_cases hsz : (matcher oligo).1.length < refCount
          · rw [if_pos hsz, Option.some.injEq] at heq
            rw [← heq]
            exact thresholdWalk_spec _ threshold hthr
          · rw [if_neg hsz, Option.some.injEq] at heq
            rw [← heq] at hne hlt
            simp only [] at hlt
            exact absurd hlt (by omega)
  · intro threshold pr hthr hsk
    rw [recalcWindow, if_neg (by rw [hsk]; exact Bool.false_ne_true)]
    exact thresholdWalk_spec _ threshold hthr

/-- Witness for C1 at a concrete rescaled window (2 of 4 references matched,
one variant covering both, threshold 40%) and a concrete viewer-side
recomputation of a stored window. -/
theorem c1_witness :
    MinCover 40 [⟨"AC", 2, 50⟩] 1 50 ∧
      MinCover 95
        (recalcWindow 95
          { position := 0, variants_needed := 0,
            analysis := WindowAnalysisResult.base, exclusivity := none }).analysis.variants
        (recalcWindow 95
          { position := 0, variants_needed := 0,
            analysis := WindowAnalysisResult.base, exclusivity := none }).analysis.variants_for_threshold
        (recalcWindow 95
          { position := 0, variants_needed := 0,
            analysis := WindowAnalysisResult.base, exclusivity := none }).analysis.coverage_at_threshold := by
  constructor
  · have h := c1_minimal_covering.1 (fun _ => (["AC", "AC"], 2))
      (fun _ => { WindowAnalysisResult.base with variants := [⟨"AC", 2, 100⟩] })
      [65, 67] 4 40 0 2
      { WindowAnalysisResult.base with
        total_sequences := 4, sequences_analyzed := 2, no_match_count := 2,
        variants := [⟨"AC", 2, 50⟩], variants_for_threshold := 1,
        coverage_at_threshold := 50 }
      (by norm_num)
      (by
        simp only [analyze_window, listSlice, rescaleVariants, thresholdWalk,
          thresholdWalkGo, List.isEmpty, List.length, List.map, List.drop,
          List.take]
        norm_num)
      (by simp) (by simp)
    simpa using h
  · exact c1_minimal_covering.2 95
      { position := 0, variants_needed := 0,
        analysis := WindowAnalysisResult.base, exclusivity := none }
      (by norm_num) rfl

/-- Claim C3: when some references did not match (`ms.length < refCount`),
`analyze_window` rescales every variant percentage to
`count / total reference count * 100` and recomputes the threshold index and
coverage by re-walking the cumulative sum under the minimal-prefix rule;
when every reference matched it returns the analyzer's result with only the
bookkeeping fields (`total_sequences`, `sequences_analyzed`,
`no_match_count`) filled in — variants, percentages, threshold index and
coverage untouched. -/
theorem c3_rescaling_against_total :
    ∀ (matcher : List Nat → List String × Nat)
      (analyzer : List String → WindowAnalysisResult)
      (templateBytes : List Nat) (refCount : Nat) (threshold : ℚ)
      (position length : Nat) (oligo : List Nat) (ms : List String) (nm : Nat),
      listSlice templateBytes position length = some oligo →
      matcher oligo = (ms, nm) →
      ms ≠ [] →
      ((ms.length < refCount →
          ∃ r, analyze_window matcher analyzer templateBytes refCount threshold
                position length = some r ∧
            r.variants = (analyzer ms).variants.map
              (fun v => { v with percentage := (v.count : ℚ) / (refCount : ℚ) * 100 }) ∧
            (0 < threshold →
              MinCover threshold r.variants r.variants_for_threshold
                r.coverage_at_threshold)) ∧
        (ms.length = refCount →
          analyze_window matcher analyzer templateBytes refCount threshold
              position length =
            some { analyzer ms with
                   total_sequences := refCount
                   sequences_analyzed := ms.length
                   no_match_count := nm })) := by
  intro matcher analyzer templateBytes refCount threshold position length oligo ms nm
    hs hm hne
  have hempty : ms.isEmpty = false := by
    cases ms with
    | nil => exact absurd rfl hne
    | cons a as => rfl
  constructor
  · intro hlt
    refine ⟨{ analyzer ms with
        total_sequences := refCount
        sequences_analyzed := ms.length
        no_match_count := nm
        variants := rescaleVariants (analyzer ms).variants refCount
        variants_for_threshold :=
          (thresholdWalk (rescaleVariants (analyzer ms).variants refCount) threshold).1
        coverage_at_threshold :=
          (thresholdWalk (rescaleVariants (analyzer ms).variants refCount) threshold).2 },
      ?_, rfl, fun hthr => thresholdWalk_spec _ threshold hthr⟩
    rw [analyze_window, hs]
    simp only [hm, hempty, Bool.false_eq_true, if_false, if_pos hlt]
  · intro heqn
    rw [analyze_window, hs]
    simp only [hm, hempty, Bool.false_eq_true, if_false,
      if_neg (by omega : ¬ms.length < refCount)]

/-- Witness for C3: one of three references matches; the analyzer reports a
single variant at 100% of the matched set, which the orchestrator rescales
to 1/3 of the total; and a run where all references matched is returned
with the analyzer's variant list untouched. -/
theorem c3_witness :
    (∃ r, analyze_window (fun _ => (["A"], 2))
        (fun _ => { WindowAnalysisResult.base with variants := [⟨"A", 1, 100⟩] })
        [65] 3 95 0 1 = some r ∧
      r.variants = [⟨"A", 1, (1 : ℚ) / 3 * 100⟩]) ∧
    analyze_window (fun _ => (["A"], 0))
        (fun _ => { WindowAnalysisResult.base with variants := [⟨"A", 1, 100⟩] })
        [65] 1 95 0 1 =
      some { WindowAnalysisResult.base with
             variants := [⟨"A", 1, 100⟩]
             total_sequences := 1
             sequences_analyzed := 1
             no_match_count := 0 } := by
  constructor
  · obtain ⟨h1, _⟩ := c3_rescaling_against_total (fun _ => (["A"], 2))
      (fun _ => { WindowAnalysisResult.base with variants := [⟨"A", 1, 100⟩] })
      [65] 3 95 0 1 [65] ["A"] 2 rfl rfl (by simp)
    obtain ⟨r, hr, hv, _⟩ := h1 (by simp)
    exact ⟨r, hr, by rw [hv]; norm_num⟩
  · obtain ⟨_, h2⟩ := c3_rescaling_against_total (fun _ => (["A"], 0))
      (fun _ => { WindowAnalysisResult.base with variants := [⟨"A", 1, 100⟩] })
      [65] 1 95 0 1 [65] ["A"] 0 rfl rfl (by simp)
    exact h2 rfl

/-- Claim C5 counterexample: at a window where no reference matches, the
produced skip reason is the capitalized string
"No valid matches found in any reference sequence", not the lowercase string
quoted in the claim. -/
theorem c5_counterexample :
    ∃ r, analyze_window (fun _ => ([], 3)) (fun _ => WindowAnalysisResult.base)
        [0, 1] 3 95 0 1 = some r ∧
      r.skipped = true ∧
      r.skip_reason ≠ some "no valid matches found in any reference sequence" := by
  refine ⟨skippedWindowResult 3 3, rfl, rfl, by decide⟩

/-- Claim C5 (amended: the reason string is capitalized, "No valid matches
found in any reference sequence"): for every window where the matcher
returns zero matched references, `analyze_window` fabricates the skipped
result directly — `skipped = true`, the capitalized reason,
`sequences_analyzed = 0`, `total_sequences` the reference count — and the
variant-consensus analyzer is never invoked: the output is identical for
every possible analyzer. -/
theorem c5_skipped_window :
    ∀ (matcher : List Nat → List String × Nat)
      (analyzer analyzer' : List String → WindowAnalysisResult)
      (templateBytes : List Nat) (refCount : Nat) (threshold : ℚ)
      (position length : Nat) (oligo : List Nat) (nm : Nat),
      listSlice templateBytes position length = some oligo →
      matcher oligo = ([], nm) →
      analyze_window matcher analyzer templateBytes refCount threshold position length =
          some (skippedWindowResult refCount nm) ∧
        analyze_window matcher analyzer templateBytes refCount threshold position length =
          analyze_window matcher analyzer' templateBytes refCount threshold position length ∧
        (skippedWindowResult refCount nm).skipped = true ∧
        (skippedWindowResult refCount nm).skip_reason =
          some "No valid matches found in any reference sequence" ∧
        (skippedWindowResult refCount nm).sequences_analyzed = 0 ∧
        (skippedWindowResult refCount nm).total_sequences = refCount := by
  intro matcher analyzer analyzer' templateBytes refCount threshold position length
    oligo nm hs hm
  have h : ∀ (a : List String → WindowAnalysisResult),
      analyze_window matcher a templateBytes refCount threshold position length =
        some (skippedWindowResult refCount nm) := by
    intro a
    rw [analyze_window, hs]
    simp only [hm]
    rfl
  exact ⟨h analyzer, (h analyzer).trans (h analyzer').symm, rfl, rfl, rfl, rfl⟩

/-- Witness for C5 (amended) at a concrete all-no-match window. -/
theorem c5_witness :
    analyze_window (fun _ => ([], 2)) (fun _ => WindowAnalysisResult.base)
        [7, 8, 9] 2 95 1 2 = some (skippedWindowResult 2 2) :=
  (c5_skipped_window (fun _ => ([], 2)) (fun _ => WindowAnalysisResult.base)
    (fun _ => WindowAnalysisResult.base) [7, 8, 9] 2 95 1 2 [8, 9] 2 rfl rfl).1

/-- `screener.rs` line 301: `buckets.entry(*m).or_insert_with(|| (0, name)).0 += 1`.
The `HashMap` is modelled as an association list in first-insertion order
(the map's iteration order is irrelevant: the histogram is sorted by key
before use, and keys are distinct). -/
def updateBuckets : List (Nat × Nat × String) → Nat → String → List (Nat × Nat × String)
  | [], m, name => [(m, 1, name)]
  | (k, c, ex) :: rest, m, name =>
      if k = m then (k, c + 1, ex) :: rest
      else (k, c, ex) :: updateBuckets rest m name

/-- `screener.rs` lines 303-307: the running minimum of matched mismatch
counts. -/
def minUpdate (minm : Option Nat) (m : Nat) : Option Nat :=
  match minm with
  | none => some m
  | some cur => if m < cur then some m else some cur

/-- The loop of `analyze_exclusivity` (`screener.rs` lines 298-316) over the
per-sequence mismatch counts paired with the sequence names, threading the
bucket map, the no-match count, the first no-match example and the running
minimum. -/
def exclGo : List (Option Nat × String) →
    List (Nat × Nat × String) → Nat → String → Option Nat →
    List (Nat × Nat × String) × Nat × String × Option Nat
  | [], buckets, nm, nmEx, minm => (buckets, nm, nmEx, minm)
  | (some m, name) :: rest, buckets, nm, nmEx, minm =>
      exclGo rest (updateBuckets buckets m name) nm nmEx (minUpdate minm m)
  | (none, name) :: rest, buckets, nm, nmEx, minm =>
      exclGo rest buckets (nm + 1) (if nm = 0 then name else nmEx) minm

/-- Histogram ordering used at `screener.rs` line 326:
`sort_by_key(|b| b.mismatches)`. -/
def bucketLE (a b : MismatchBucket) : Prop := a.mismatches ≤ b.mismatches

instance : DecidableRel bucketLE := fun a b => Nat.decLe a.mismatches b.mismatches

instance : IsTotal MismatchBucket bucketLE := ⟨fun a b => Nat.le_total a.mismatches b.mismatches⟩

instance : IsTrans MismatchBucket bucketLE := ⟨fun _ _ _ h h' => Nat.le_trans h h'⟩

/-- `screener.rs` lines 318-335: turn the bucket map into `MismatchBucket`
values, sort ascending by mismatch count, and append the `u32::MAX` sentinel
bucket when any sequence failed to match. -/
def toBucket (b : Nat × Nat × String) : MismatchBucket :=
  { mismatches := b.1, count := b.2.1, example_name := b.2.2 }

def buildHistogram (B : List (Nat × Nat × String)) (nm : Nat)
    (nmEx : String) : List MismatchBucket :=
  let sorted := List.insertionSort bucketLE (B.map toBucket)
  if 0 < nm then
    sorted ++ [{ mismatches := u32Max, count := nm, example_name := nmEx }]
  else sorted

/-- `analyze_exclusivity` (`screener.rs` lines 278-343), with the batch
matcher (`collect_mismatch_counts_with_aligner`, module `pairwise`, outside
the reviewed sources) abstracted as the `mismatchCounts` input: one
`Option` mismatch count per exclusivity sequence (`none` = no match).
The histogram is sorted by mismatch count and, when any sequence failed to
match, a sentinel bucket keyed `u32::MAX` is appended. -/
def analyze_exclusivity (mismatchCounts : List (Option Nat))
    (names : List String) : ExclusivityResult :=
  let st := exclGo (mismatchCounts.zip names) [] 0 "" none
  { total_sequences := mismatchCounts.length
    no_match_count := st.2.1
    mismatch_histogram := buildHistogram st.1 st.2.1 st.2.2.1
    min_mismatches := st.2.2.2 }

/-- Number of entries carrying mismatch value `m` (specification side). -/
def valCount (ps : List (Option Nat × String)) (m : Nat) : Nat :=
  (ps.filter (fun p => p.1 == some m)).length

/-- Name of the first entry carrying mismatch value `m` (specification
side). -/
def firstAt (ps : List (Option Nat × String)) (m : Nat) : Option String :=
  (ps.find? (fun p => p.1 == some m)).map (fun p => p.2)

/-- Invariant tying the bucket association list to the processed entries:
keys are distinct, a key occurs iff its value was observed, and each bucket
carries the exact multiplicity and the first example name of its key. -/
def BInv (ps : List (Option Nat × String)) (B : List (Nat × Nat × String)) : Prop :=
  (B.map (fun b => b.1)).Nodup ∧
  (∀ k, k ∈ B.map (fun b => b.1) ↔ some k ∈ ps.map (fun p => p.1)) ∧
  (∀ k c ex, (k, c, ex) ∈ B → c = valCount ps k ∧ firstAt ps k = some ex)

theorem updateBuckets_keys (m : Nat) (name : String) :
    ∀ B : List (Nat × Nat × String),
      (updateBuckets B m name).map (fun b => b.1) =
        if m ∈ B.map (fun b => b.1) then B.map (fun b => b.1)
        else B.map (fun b => b.1) ++ [m] := by
  intro B
  induction B with
  | nil => simp [updateBuckets]
  | cons hd rest ih =>
      obtain ⟨k, c, ex⟩ := hd
      by_cases hk : k = m
      · subst hk
        simp [updateBuckets]
      · simp only [updateBuckets, if_neg hk, List.map_cons, ih]
        by_cases hm : m ∈ rest.map (fun b => b.1)
        · rw [if_pos hm, if_pos (by simp [hm])]
        · rw [if_neg hm, if_neg (by simp [hm, Ne.symm hk]), List.cons_append]

theorem updateBuckets_sum (m : Nat) (name : String) :
    ∀ B : List (Nat × Nat × String),
      ((updateBuckets B m name).map (fun b => b.2.1)).sum =
        (B.map (fun b => b.2.1)).sum + 1 := by
  intro B
  induction B with
  | nil => simp [updateBuckets]
  | cons hd rest ih =>
      obtain ⟨k, c, ex⟩ := hd
      by_cases hk : k = m
      · subst hk; simp [updateBuckets]; omega
      · simp only [updateBuckets, if_neg hk, List.map_cons, List.sum_cons, ih]
        omega

theorem updateBuckets_mem (m : Nat) (name : String) :
    ∀ (B : List (Nat × Nat × String)), (B.map (fun b => b.1)).Nodup →
      ∀ (kk cc : Nat) (xx : String),
      ((kk, cc, xx) ∈ updateBuckets B m name ↔
        ((kk ≠ m ∧ (kk, cc, xx) ∈ B) ∨
         (kk = m ∧ ∃ c0, (m, c0, xx) ∈ B ∧ cc = c0 + 1) ∨
         (kk = m ∧ m ∉ B.map (fun b => b.1) ∧ cc = 1 ∧ xx = name))) := by
  intro B
  induction B with
  | nil =>
      intro _ kk cc xx
      simp [updateBuckets, Prod.ext_iff]
  | cons hd rest ih =>
      intro hnd kk cc xx
      obtain ⟨k0, c0, ex0⟩ := hd
      simp only [List.map_cons, List.nodup_cons] at hnd
      by_cases hkm : k0 = m
      · subst hkm
        have hupd : updateBuckets ((k0, c0, ex0) :: rest) k0 name =
            (k0, c0 + 1, ex0) :: rest := by
          simp [updateBuckets]
        rw [hupd]
        constructor
        · intro h
          rcases List.mem_cons.mp h with heq | hmem
          · obtain ⟨h1, h2, h3⟩ : kk = k0 ∧ cc = c0 + 1 ∧ xx = ex0 := by
              simpa [Prod.ext_iff] using heq
            subst h1; subst h2; subst h3
            exact Or.inr (Or.inl ⟨rfl, c0, List.mem_cons_self .., rfl⟩)
          · have hkk : kk ≠ k0 := by
              intro h
              subst h
              exact hnd.1 (List.mem_map.mpr ⟨(kk, cc, xx), hmem, rfl⟩)
            exact Or.inl ⟨hkk, List.mem_cons_of_mem _ hmem⟩
        · rintro (⟨hkk, hmem⟩ | ⟨rfl, c1, hc1, rfl⟩ | ⟨rfl, hnotmem, rfl, rfl⟩)
          · rcases List.mem_cons.mp hmem with heq | hmem'
            · obtain ⟨h1, _, _⟩ : kk = k0 ∧ cc = c0 ∧ xx = ex0 := by
                simpa [Prod.ext_iff] using heq
              exact absurd h1 hkk
            · exact List.mem_cons_of_mem _ hmem'
          · rcases List.mem_cons.mp hc1 with heq | hmem'
            · obtain ⟨h2, h3⟩ : c1 = c0 ∧ xx = ex0 := by
                simpa [Prod.ext_iff] using heq
              subst h2; subst h3
              exact List.mem_cons_self ..
            · exact absurd (List.mem_map.mpr ⟨(kk, c1, xx), hmem', rfl⟩) hnd.1
          · exact absurd (by simp) hnotmem
      · have hupd : updateBuckets ((k0, c0, ex0) :: rest) m name =
            (k0, c0, ex0) :: updateBuckets rest m name := by
          simp [updateBuckets, hkm]
        rw [hupd]
        have ihr := ih hnd.2 kk cc xx
        constructor
        · intro h
          rcases List.mem_cons.mp h with heq | hmem
          · obtain ⟨h1, _, _⟩ : kk = k0 ∧ cc = c0 ∧ xx = ex0 := by
              simpa [Prod.ext_iff] using heq
            exact Or.inl ⟨by rw [h1]; exact hkm, List.mem_cons.mpr (Or.inl heq)⟩
          · rcases ihr.mp hmem with ⟨h1, h2⟩ | ⟨h1, c1, h2, h3⟩ | ⟨h1, h2, h3, h4⟩
            · exact Or.inl ⟨h1, List.mem_cons_of_mem _ h2⟩
            · exact Or.inr (Or.inl ⟨h1, c1, List.mem_cons_of_mem _ h2, h3⟩)
            · refine Or.inr (Or.inr ⟨h1, ?_, h3, h4⟩)
              simp only [List.map_cons, List.mem_cons]
              rintro (h' | h')
              · exact hkm h'.symm
              · exact h2 h'
        · rintro (⟨hkk, hmem⟩ | ⟨h1, c1, hc1, h3⟩ | ⟨h1, hnotmem, h3, h4⟩)
          · rcases List.mem_cons.mp hmem with heq | hmem'
            · exact List.mem_cons.mpr (Or.inl heq)
            · exact List.mem_cons_of_mem _ (ihr.mpr (Or.inl ⟨hkk, hmem'⟩))
          · rcases List.mem_cons.mp hc1 with heq | hmem'
            · obtain ⟨h5, _, _⟩ : m = k0 ∧ c1 = c0 ∧ xx = ex0 := by
                simpa [Prod.ext_iff] using heq
              exact absurd h5.symm hkm
            · exact List.mem_cons_of_mem _
                (ihr.mpr (Or.inr (Or.inl ⟨h1, c1, hmem', h3⟩)))
          · refine List.mem_cons_of_mem _
              (ihr.mpr (Or.inr (Or.inr ⟨h1, ?_, h3, h4⟩)))
            intro h'
            exact hnotmem (by simp [h'])

theorem valCount_append_one (ps : List (Option Nat × String))
    (q : Option Nat × String) (k : Nat) :
    valCount (ps ++ [q]) k =
      valCount ps k + (if q.1 == some k then 1 else 0) := by
  rw [valCount, valCount, List.filter_append, List.length_append]
  by_cases h : q.1 == some k <;> simp [List.filter, h]

theorem firstAt_append (ps qs : List (Option Nat × String)) (k : Nat) :
    firstAt (ps ++ qs) k =
      ((ps.find? (fun p => p.1 == some k)).or
        (qs.find? (fun p => p.1 == some k))).map (fun p => p.2) := by
  rw [firstAt, List.find?_append]

theorem BInv_step_none (ps : List (Option Nat × String))
    (B : List (Nat × Nat × String)) (name : String) (h : BInv ps B) :
    BInv (ps ++ [(none, name)]) B := by
  obtain ⟨h1, h2, h3⟩ := h
  refine ⟨h1, ?_, ?_⟩
  · intro k
    rw [h2 k]
    simp
  · intro k c ex hmem
    obtain ⟨hc, hex⟩ := h3 k c ex hmem
    constructor
    · rw [valCount_append_one]
      simp [hc]
    · rw [firstAt_append]
      obtain ⟨p, hp, hp2⟩ := Option.map_eq_some'.mp hex
      rw [hp]
      simp [hp2]

theorem BInv_step_some (ps : List (Option Nat × String))
    (B : List (Nat × Nat × String)) (m : Nat) (name : String) (h : BInv ps B) :
    BInv (ps ++ [(some m, name)]) (updateBuckets B m name) := by
  obtain ⟨h1, h2, h3⟩ := h
  have hkeys := updateBuckets_keys m name B
  refine ⟨?_, ?_, ?_⟩
  · rw [hkeys]
    by_cases hm : m ∈ B.map (fun b => b.1)
    · rw [if_pos hm]; exact h1
    · rw [if_neg hm]
      simp [List.nodup_append, h1, hm]
  · intro k
    have hmap : (some k ∈ ((ps ++ [(some m, name)]).map (fun p => p.1))) ↔
        (some k ∈ ps.map (fun p => p.1) ∨ k = m) := by
      simp [eq_comm]
    rw [hkeys, hmap]
    by_cases hm : m ∈ B.map (fun b => b.1)
    · rw [if_pos hm, h2 k]
      constructor
      · exact Or.inl
      · rintro (hk | rfl)
        · exact hk
        · exact (h2 k).mp hm
    · rw [if_neg hm]
      simp only [List.mem_append, List.mem_singleton, h2 k]
  · intro k c ex hmem
    rw [updateBuckets_mem m name B h1 k c ex] at hmem
    rcases hmem with ⟨hkm, hmem⟩ | ⟨rfl, c1, hmem, rfl⟩ | ⟨rfl, hnot, rfl, rfl⟩
    · obtain ⟨hc, hex⟩ := h3 k c ex hmem
      have hne : ((some m : Option Nat) == some k) = false := by
        simp [Ne.symm hkm]
      constructor
      · rw [valCount_append_one]
        simp [hne, hc]
      · rw [firstAt_append]
        obtain ⟨p, hp, hp2⟩ := Option.map_eq_some'.mp hex
        rw [hp]
        simp [hp2]
    · obtain ⟨hc, hex⟩ := h3 k c1 ex hmem
      constructor
      · rw [valCount_append_one]
        simp [hc]
      · rw [firstAt_append]
        obtain ⟨p, hp, hp2⟩ := Option.map_eq_some'.mp hex
        rw [hp]
        simp [hp2]
    · have hobs : some k ∉ ps.map (fun p => p.1) := fun hk => hnot ((h2 k).mpr hk)
      have hfind : ps.find? (fun p => p.1 == some k) = none := by
        rw [List.find?_eq_none]
        intro x hx hpx
        exact hobs (List.mem_map.mpr ⟨x, hx, by simpa using hpx⟩)
      have hcount : valCount ps k = 0 := by
        rw [valCount, List.length_eq_zero, List.filter_eq_nil_iff]
        intro a ha hpa
        exact hobs (List.mem_map.mpr ⟨a, ha, by simpa using hpa⟩)
      constructor
      · rw [valCount_append_one]
        simp [hcount]
      · rw [firstAt_append, hfind]
        simp [List.find?]

theorem exclGo_buckets :
    ∀ (ps processed : List (Option Nat × String)) (B : List (Nat × Nat × String))
      (nm : Nat) (ex : String) (mm : Option Nat),
      BInv processed B → BInv (processed ++ ps) (exclGo ps B nm ex mm).1 := by
  intro ps
  induction ps with
  | nil =>
      intro processed B nm ex mm h
      simpa [exclGo] using h
  | cons hd rest ih =>
      intro processed B nm ex mm h
      obtain ⟨o, name⟩ := hd
      cases o with
      | some m =>
          have h' := BInv_step_some processed B m name h
          have hmain := ih (processed ++ [(some m, name)]) (updateBuckets B m name)
            nm ex (minUpdate mm m) h'
          simpa [exclGo, List.append_assoc] using hmain
      | none =>
          have h' := BInv_step_none processed B name h
          have hmain := ih (processed ++ [(none, name)]) B (nm + 1)
            (if nm = 0 then name else ex) mm h'
          simpa [exclGo, List.append_assoc] using hmain

theorem exclGo_nm :
    ∀ (ps : List (Option Nat × String)) (B : List (Nat × Nat × String))
      (nm : Nat) (ex : String) (mm : Option Nat),
      (exclGo ps B nm ex mm).2.1 = nm + (ps.filter (fun p => p.1.isNone)).length := by
  intro ps
  induction ps with
  | nil => intro B nm ex mm; simp [exclGo]
  | cons hd rest ih =>
      intro B nm ex mm
      obtain ⟨o, name⟩ := hd
      cases o with
      | some m => simp [exclGo, ih]
      | none =>
          simp only [exclGo, ih, List.filter_cons]
          simp
          omega

theorem exclGo_sum :
    ∀ (ps : List (Option Nat × String)) (B : List (Nat × Nat × String))
      (nm : Nat) (ex : String) (mm : Option Nat),
      ((exclGo ps B nm ex mm).1.map (fun b => b.2.1)).sum =
        (B.map (fun b => b.2.1)).sum + (ps.filter (fun p => (p.1).isSome)).length := by
  intro ps
  induction ps with
  | nil => intro B nm ex mm; simp [exclGo]
  | cons hd rest ih =>
      intro B nm ex mm
      obtain ⟨o, name⟩ := hd
      cases o with
      | some m =>
          simp only [exclGo, ih, updateBuckets_sum, List.filter_cons]
          simp
          omega
      | none =>
          simp only [exclGo, ih, List.filter_cons]
          simp

theorem exclGo_ex :
    ∀ (ps : List (Option Nat × String)) (B : List (Nat × Nat × String))
      (nm : Nat) (ex : String) (mm : Option Nat),
      (exclGo ps B nm ex mm).2.2.1 =
        if nm = 0 then
          (match ps.find? (fun p => p.1.isNone) with
            | some q => q.2
            | none => ex)
        else ex := by
  intro ps
  induction ps with
  | nil => intro B nm ex mm; simp [exclGo]
  | cons hd rest ih =>
      intro B nm ex mm
      obtain ⟨o, name⟩ := hd
      cases o with
      | some m =>
          simp only [exclGo, ih, List.find?_cons, Option.isNone_some,
            cond_false, Bool.false_eq_true, if_false]
      | none =>
          simp only [exclGo, ih, List.find?_cons, Option.isNone_none, cond_true]
          by_cases hnm : nm = 0
          · simp [hnm]
          · simp [hnm]

theorem exclGo_min :
    ∀ (ps : List (Option Nat × String)) (B : List (Nat × Nat × String))
      (nm : Nat) (ex : String) (mm : Option Nat),
      (exclGo ps B nm ex mm).2.2.2 =
        (ps.filterMap (fun p => p.1)).foldl minUpdate mm := by
  intro ps
  induction ps with
  | nil => intro B nm ex mm; simp [exclGo]
  | cons hd rest ih =>
      intro B nm ex mm
      obtain ⟨o, name⟩ := hd
      cases o with
      | some m => simp [exclGo, ih, List.filterMap_cons]
      | none => simp [exclGo, ih, List.filterMap_cons]

theorem foldl_minUpdate_some_spec :
    ∀ (l : List Nat) (v : Nat),
      ∃ w, l.foldl minUpdate (some v) = some w ∧ (w = v ∨ w ∈ l) ∧ w ≤ v ∧
        ∀ u ∈ l, w ≤ u := by
  intro l
  induction l with
  | nil => intro v; exact ⟨v, rfl, Or.inl rfl, le_refl v, by simp⟩
  | cons m rest ih =>
      intro v
      have hupd : minUpdate (some v) m = some (min m v) := by
        rw [minUpdate]
        split
        · next h => rw [Nat.min_eq_left (Nat.le_of_lt h)]
        · next h => rw [Nat.min_eq_right (by omega)]
      obtain ⟨w, hw, hmem, hle, hall⟩ := ih (min m v)
      refine ⟨w, by rw [List.foldl_cons, hupd]; exact hw, ?_, ?_, ?_⟩
      · rcases hmem with rfl | hin
        · rcases Nat.le_total m v with h | h
          · exact Or.inr (by simp [Nat.min_eq_left h])
          · exact Or.inl (Nat.min_eq_right h)
        · exact Or.inr (List.mem_cons_of_mem _ hin)
      · exact hle.trans (Nat.min_le_right m v)
      · intro u hu
        rcases List.mem_cons.mp hu with rfl | hu'
        · exact hle.trans (Nat.min_le_left u v)
        · exact hall u hu'

theorem foldl_minUpdate_none_spec (l : List Nat) :
    (l = [] ∧ l.foldl minUpdate none = none) ∨
      (l ≠ [] ∧ ∃ w, l.foldl minUpdate none = some w ∧ w ∈ l ∧ ∀ u ∈ l, w ≤ u) := by
  cases l with
  | nil => exact Or.inl ⟨rfl, rfl⟩
  | cons m rest =>
      refine Or.inr ⟨by simp, ?_⟩
      obtain ⟨w, hw, hmem, hle, hall⟩ := foldl_minUpdate_some_spec rest m
      refine ⟨w, by rw [List.foldl_cons]; exact hw, ?_, ?_⟩
      · rcases hmem with rfl | hin
        · exact List.mem_cons_self ..
        · exact List.mem_cons_of_mem _ hin
      · intro u hu
        rcases List.mem_cons.mp hu with rfl | hu'
        · exact hle
        · exact hall u hu'

theorem excl_BInv (counts : List (Option Nat)) (names : List String) :
    BInv (counts.zip names) (exclGo (counts.zip names) [] 0 "" none).1 := by
  have h0 : BInv [] ([] : List (Nat × Nat × String)) := ⟨by simp, by simp, by simp⟩
  simpa using exclGo_buckets (counts.zip names) [] [] 0 "" none h0

theorem valCount_eq_count (m : Nat) :
    ∀ (counts : List (Option Nat)) (names : List String),
      counts.length = names.length →
      valCount (counts.zip names) m = counts.count (some m) := by
  intro counts
  induction counts with
  | nil => intro names _; simp [valCount]
  | cons c rest ih =>
      intro names hlen
      cases names with
      | nil => simp at hlen
      | cons n ns =>
          have ih' := ih ns (by simpa using hlen)
          by_cases hc : c = some m
          · simp [valCount, List.filter_cons, List.count_cons, hc, ih'] at ih' ⊢
            simpa [valCount] using ih'
          · simp [valCount, List.filter_cons, List.count_cons, hc, ih'] at ih' ⊢
            simpa [valCount] using ih'

theorem filterNone_eq_count :
    ∀ (counts : List (Option Nat)) (names : List String),
      counts.length = names.length →
      ((counts.zip names).filter (fun p => (p.1).isNone)).length =
        counts.count none := by
  intro counts
  induction counts with
  | nil => intro names _; simp
  | cons c rest ih =>
      intro names hlen
      cases names with
      | nil => simp at hlen
      | cons n ns =>
          have ih' := ih ns (by simpa using hlen)
          cases c with
          | none => simp [List.filter_cons, List.count_cons, ih']
          | some v => simp [List.filter_cons, List.count_cons, ih']

theorem excl_filter_split (ps : List (Option Nat × String)) :
    (ps.filter (fun p => (p.1).isSome)).length +
      (ps.filter (fun p => (p.1).isNone)).length = ps.length := by
  induction ps with
  | nil => simp
  | cons hd rest ih =>
      cases h : hd.1 <;> simp [List.filter_cons, h] <;> omega

theorem buildHistogram_props (B : List (Nat × Nat × String)) (nm : Nat)
    (nmEx : String) (hnd : (B.map (fun b => b.1)).Nodup)
    (hmaxB : ∀ k ∈ B.map (fun b => b.1), k < u32Max) :
    ((buildHistogram B nm nmEx).map (fun b => b.mismatches)).Sorted (· ≤ ·) ∧
    ((buildHistogram B nm nmEx).map (fun b => b.mismatches)).Nodup ∧
    (∀ m : Nat, m < u32Max →
      ((∃ b ∈ buildHistogram B nm nmEx, b.mismatches = m) ↔
        m ∈ B.map (fun b => b.1))) ∧
    (∀ b ∈ buildHistogram B nm nmEx, b.mismatches < u32Max →
      (b.mismatches, b.count, b.example_name) ∈ B) ∧
    (0 < nm → (buildHistogram B nm nmEx).getLast? =
      some { mismatches := u32Max, count := nm, example_name := nmEx }) ∧
    (∀ b ∈ buildHistogram B nm nmEx, b.mismatches = u32Max → 0 < nm) ∧
    ((buildHistogram B nm nmEx).map (fun b => b.count)).sum =
      (B.map (fun b => b.2.1)).sum + nm := by
  have hperm : (List.insertionSort bucketLE (B.map toBucket)).Perm (B.map toBucket) :=
    List.perm_insertionSort _ _
  have hsorted := List.sorted_insertionSort bucketLE (B.map toBucket)
  have hkeysperm : ((List.insertionSort bucketLE (B.map toBucket)).map
      (fun b => b.mismatches)).Perm (B.map (fun b => b.1)) := by
    have h := hperm.map (fun b => b.mismatches)
    rw [List.map_map] at h
    exact h
  have hmemsort : ∀ b, b ∈ List.insertionSort bucketLE (B.map toBucket) ↔
      ∃ x ∈ B, b = toBucket x := by
    intro b
    rw [hperm.mem_iff, List.mem_map]
    constructor
    · rintro ⟨x, hx, rfl⟩; exact ⟨x, hx, rfl⟩
    · rintro ⟨x, hx, rfl⟩; exact ⟨x, hx, rfl⟩
  have hlt_sorted : ∀ b ∈ List.insertionSort bucketLE (B.map toBucket),
      b.mismatches < u32Max := by
    intro b hb
    obtain ⟨x, hx, rfl⟩ := (hmemsort b).mp hb
    exact hmaxB x.1 (List.mem_map.mpr ⟨x, hx, rfl⟩)
  have hkeysorted : ((List.insertionSort bucketLE (B.map toBucket)).map
      (fun b => b.mismatches)).Sorted (· ≤ ·) :=
    List.pairwise_map.mpr hsorted
  have hkeynodup : ((List.insertionSort bucketLE (B.map toBucket)).map
      (fun b => b.mismatches)).Nodup := hkeysperm.nodup_iff.mpr hnd
  by_cases hnm : 0 < nm
  · have hhist : buildHistogram B nm nmEx =
        List.insertionSort bucketLE (B.map toBucket) ++
          [{ mismatches := u32Max, count := nm, example_name := nmEx }] := by
      rw [buildHistogram, if_pos hnm]
    rw [hhist]
    refine ⟨?_, ?_, ?_, ?_, ?_, ?_, ?_⟩
    · rw [List.map_append]
      rw [List.Sorted] at hkeysorted ⊢
      rw [List.pairwise_append]
      refine ⟨hkeysorted, by simp, ?_⟩
      intro a ha b hb
      simp only [List.map_cons, List.map_nil, List.mem_singleton] at hb
      subst hb
      obtain ⟨c, hc, rfl⟩ := List.mem_map.mp ha
      exact le_of_lt (hlt_sorted c hc)
    · rw [List.map_append, List.nodup_append]
      refine ⟨hkeynodup, by simp, ?_⟩
      intro a ha
      simp only [List.map_cons, List.map_nil, List.mem_singleton]
      obtain ⟨c, hc, rfl⟩ := List.mem_map.mp ha
      exact Nat.ne_of_lt (hlt_sorted c hc)
    · intro m hm
      constructor
      · rintro ⟨b, hb, rfl⟩
        rcases List.mem_append.mp hb with hb' | hb'
        · obtain ⟨x, hx, rfl⟩ := (hmemsort b).mp hb'
          exact List.mem_map.mpr ⟨x, hx, rfl⟩
        · rw [List.mem_singleton] at hb'
          subst hb'
          exact absurd hm (by simp)
      · intro hmem
        obtain ⟨x, hx, hxm⟩ := List.mem_map.mp hmem
        exact ⟨toBucket x,
          List.mem_append.mpr (Or.inl ((hmemsort _).mpr ⟨x, hx, rfl⟩)), hxm⟩
    · intro b hb hblt
      rcases List.mem_append.mp hb with hb' | hb'
      · obtain ⟨x, hx, rfl⟩ := (hmemsort b).mp hb'
        simpa [toBucket] using hx
      · rw [List.mem_singleton] at hb'
        subst hb'
        exact absurd hblt (by simp)
    · intro _
      exact List.getLast?_concat _
    · intro _ _ _
      exact hnm
    · rw [List.map_append, List.sum_append]
      have hcountperm := hperm.map (fun b => b.count)
      rw [List.map_map] at hcountperm
      have hmapeq : List.map ((fun b => b.count) ∘ toBucket) B =
          List.map (fun b => b.2.1) B := rfl
      rw [hcountperm.sum_eq, hmapeq]
      simp
  · have hnm0 : nm = 0 := by omega
    have hhist : buildHistogram B nm nmEx =
        List.insertionSort bucketLE (B.map toBucket) := by
      rw [buildHistogram, if_neg hnm]
    rw [hhist]
    refine ⟨hkeysorted, hkeynodup, ?_, ?_, ?_, ?_, ?_⟩
    · intro m _
      constructor
      · rintro ⟨b, hb, rfl⟩
        obtain ⟨x, hx, rfl⟩ := (hmemsort b).mp hb
        exact List.mem_map.mpr ⟨x, hx, rfl⟩
      · intro hmem
        obtain ⟨x, hx, hxm⟩ := List.mem_map.mp hmem
        exact ⟨toBucket x, (hmemsort _).mpr ⟨x, hx, rfl⟩, hxm⟩
    · intro b hb _
      obtain ⟨x, hx, rfl⟩ := (hmemsort b).mp hb
      simpa [toBucket] using hx
    · intro h
      exact absurd h hnm
    · intro b hb hbm
      exact absurd (hbm ▸ hlt_sorted b hb) (lt_irrefl _)
    · have hcountperm := hperm.map (fun b => b.count)
      rw [List.map_map] at hcountperm
      have hmapeq : List.map ((fun b => b.count) ∘ toBucket) B =
          List.map (fun b => b.2.1) B := rfl
      rw [hcountperm.sum_eq, hmapeq, hnm0]
      simp

theorem find?_isNone_of_filter_pos (ps : List (Option Nat × String))
    (h : 0 < (ps.filter (fun p => (p.1).isNone)).length) :
    ∃ q, ps.find? (fun p => (p.1).isNone) = some q := by
  cases hf : ps.find? (fun p => (p.1).isNone) with
  | some q => exact ⟨q, rfl⟩
  | none =>
      rw [List.find?_eq_none] at hf
      have : ps.filter (fun p => (p.1).isNone) = [] :=
        List.filter_eq_nil_iff.mpr hf
      rw [this] at h
      simp at h

/-- Claim C4: the exclusivity mismatch histogram has exactly one bucket per
distinct mismatch value observed among matched sequences (bucket count =
number of sequences at that value, example name = first sequence at that
value in input order), the buckets are sorted ascending by mismatch count;
all no-match sequences are aggregated into a single trailing sentinel bucket
keyed `u32::MAX` (present exactly when at least one sequence failed to
match, with the first no-match name as its example); and the bucket counts
partition the exclusivity set: they sum to the total number of exclusivity
sequences. -/
theorem c4_histogram_partition (counts : List (Option Nat)) (names : List String)
    (hlen : counts.length = names.length)
    (hmax : ∀ m : Nat, some m ∈ counts → m < u32Max) :
    (((analyze_exclusivity counts names).mismatch_histogram.map
        (fun b => b.mismatches)).Sorted (· ≤ ·) ∧
      ((analyze_exclusivity counts names).mismatch_histogram.map
        (fun b => b.mismatches)).Nodup) ∧
    (∀ m : Nat, m < u32Max →
      ((∃ b ∈ (analyze_exclusivity counts names).mismatch_histogram,
          b.mismatches = m) ↔ some m ∈ counts)) ∧
    (∀ b ∈ (analyze_exclusivity counts names).mismatch_histogram,
      b.mismatches < u32Max →
        b.count = counts.count (some b.mismatches) ∧
        firstAt (counts.zip names) b.mismatches = some b.example_name) ∧
    (0 < (analyze_exclusivity counts names).no_match_count →
      ∃ b, (analyze_exclusivity counts names).mismatch_histogram.getLast? = some b ∧
        b.mismatches = u32Max ∧
        b.count = (analyze_exclusivity counts names).no_match_count ∧
        ((counts.zip names).find? (fun p => (p.1).isNone)).map (fun p => p.2) =
          some b.example_name) ∧
    (∀ b ∈ (analyze_exclusivity counts names).mismatch_histogram,
      b.mismatches = u32Max → 0 < (analyze_exclusivity counts names).no_match_count) ∧
    ((analyze_exclusivity counts names).mismatch_histogram.map
        (fun b => b.count)).sum = counts.length ∧
    (analyze_exclusivity counts names).no_match_count = counts.count none := by
  obtain ⟨hnd, hkeys, hvals⟩ := excl_BInv counts names
  have hmapfst : (counts.zip names).map (fun p => p.1) = counts :=
    List.map_fst_zip counts names (le_of_eq hlen)
  have hmaxB : ∀ k ∈ ((exclGo (counts.zip names) [] 0 "" none).1).map
      (fun b => b.1), k < u32Max := by
    intro k hk
    have := (hkeys k).mp hk
    rw [hmapfst] at this
    exact hmax k this
  obtain ⟨p1, p2, p3, p4, p5, p6, p7⟩ :=
    buildHistogram_props (exclGo (counts.zip names) [] 0 "" none).1
      (exclGo (counts.zip names) [] 0 "" none).2.1
      (exclGo (counts.zip names) [] 0 "" none).2.2.1 hnd hmaxB
  have hhr : (analyze_exclusivity counts names).mismatch_histogram =
      buildHistogram (exclGo (counts.zip names) [] 0 "" none).1
        (exclGo (counts.zip names) [] 0 "" none).2.1
        (exclGo (counts.zip names) [] 0 "" none).2.2.1 := rfl
  have hnmr : (analyze_exclusivity counts names).no_match_count =
      (exclGo (counts.zip names) [] 0 "" none).2.1 := rfl
  have hnmval : (exclGo (counts.zip names) [] 0 "" none).2.1 =
      ((counts.zip names).filter (fun p => (p.1).isNone)).length := by
    rw [exclGo_nm]
    omega
  refine ⟨⟨hhr ▸ p1, hhr ▸ p2⟩, ?_, ?_, ?_, ?_, ?_, ?_⟩
  · intro m hm
    rw [hhr, p3 m hm, hkeys m, hmapfst]
  · intro b hb hblt
    rw [hhr] at hb
    obtain ⟨hc, hex⟩ := hvals b.mismatches b.count b.example_name (p4 b hb hblt)
    exact ⟨hc.trans (valCount_eq_count b.mismatches counts names hlen), hex⟩
  · intro hpos
    rw [hnmr] at hpos
    refine ⟨_, hhr ▸ p5 hpos, rfl, hnmr, ?_⟩
    have hfind : ∃ q, (counts.zip names).find? (fun p => (p.1).isNone) = some q := by
      apply find?_isNone_of_filter_pos
      rw [← hnmval]
      exact hpos
    obtain ⟨q, hq⟩ := hfind
    have hex : (exclGo (counts.zip names) [] 0 "" none).2.2.1 = q.2 := by
      rw [exclGo_ex, if_pos rfl, hq]
    rw [hq, hex]
    rfl
  · intro b hb hbm
    rw [hnmr]
    exact p6 b (hhr ▸ hb) hbm
  · rw [hhr, p7, exclGo_sum, hnmval]
    simp only [List.map_nil, List.sum_nil, Nat.zero_add]
    have hsplit := excl_filter_split (counts.zip names)
    have hzlen : (counts.zip names).length = counts.length := by
      rw [List.length_zip]
      omega
    omega
  · rw [hnmr, hnmval, filterNone_eq_count counts names hlen]

/-- Witness for C4 at the concrete input
`counts = [some 2, none, some 0, some 2]`,
`names = ["a", "b", "c", "d"]`: the partition property instantiated. -/
theorem c4_witness :
    ((analyze_exclusivity [some 2, none, some 0, some 2]
        ["a", "b", "c", "d"]).mismatch_histogram.map (fun b => b.count)).sum = 4 :=
  (c4_histogram_partition [some 2, none, some 0, some 2] ["a", "b", "c", "d"]
    (by decide) (by intro m hm; simp [u32Max] at hm ⊢; omega)).2.2.2.2.2.1

theorem filterMap_fst_zip :
    ∀ (counts : List (Option Nat)) (names : List String),
      counts.length = names.length →
      (counts.zip names).filterMap (fun p => p.1) = counts.filterMap id := by
  intro counts
  induction counts with
  | nil => intro names _; simp
  | cons c rest ih =>
      intro names hlen
      cases names with
      | nil => simp at hlen
      | cons n ns =>
          have ih' := ih ns (by simpa using hlen)
          cases c with
          | none => simpa [List.filterMap_cons] using ih'
          | some v => simpa [List.filterMap_cons] using ih'

/-- Claim C7: `min_mismatches` is the smallest mismatch count among matched
exclusivity sequences — equivalently the first (smallest) histogram bucket
key — and it is `none` exactly when no exclusivity sequence matched. -/
theorem c7_min_mismatches (counts : List (Option Nat)) (names : List String)
    (hlen : counts.length = names.length)
    (hmax : ∀ m : Nat, some m ∈ counts → m < u32Max) :
    ((analyze_exclusivity counts names).min_mismatches = none ↔
      counts.filterMap id = []) ∧
    (∀ v, (analyze_exclusivity counts names).min_mismatches = some v →
      v ∈ counts.filterMap id ∧ ∀ u ∈ counts.filterMap id, v ≤ u) ∧
    (counts.filterMap id ≠ [] →
      ∃ b, (analyze_exclusivity counts names).mismatch_histogram.head? = some b ∧
        (analyze_exclusivity counts names).min_mismatches = some b.mismatches) := by
  have hmmr : (analyze_exclusivity counts names).min_mismatches =
      (counts.filterMap id).foldl minUpdate none := by
    have h1 : (analyze_exclusivity counts names).min_mismatches =
        (exclGo (counts.zip names) [] 0 "" none).2.2.2 := rfl
    rw [h1, exclGo_min, filterMap_fst_zip counts names hlen]
  obtain ⟨hnd, hkeys, hvals⟩ := excl_BInv counts names
  have hmapfst : (counts.zip names).map (fun p => p.1) = counts :=
    List.map_fst_zip counts names (le_of_eq hlen)
  have hmaxB : ∀ k ∈ ((exclGo (counts.zip names) [] 0 "" none).1).map
      (fun b => b.1), k < u32Max := by
    intro k hk
    have := (hkeys k).mp hk
    rw [hmapfst] at this
    exact hmax k this
  obtain ⟨p1, p2, p3, p4, p5, p6, p7⟩ :=
    buildHistogram_props (exclGo (counts.zip names) [] 0 "" none).1
      (exclGo (counts.zip names) [] 0 "" none).2.1
      (exclGo (counts.zip names) [] 0 "" none).2.2.1 hnd hmaxB
  have hhr : (analyze_exclusivity counts names).mismatch_histogram =
      buildHistogram (exclGo (counts.zip names) [] 0 "" none).1
        (exclGo (counts.zip names) [] 0 "" none).2.1
        (exclGo (counts.zip names) [] 0 "" none).2.2.1 := rfl
  have hvmem : ∀ v : Nat, v ∈ counts.filterMap id ↔ some v ∈ counts := by
    intro v
    rw [List.mem_filterMap]
    constructor
    · rintro ⟨a, ha, rfl⟩; exact ha
    · intro h; exact ⟨some v, h, rfl⟩
  rcases foldl_minUpdate_none_spec (counts.filterMap id) with
    ⟨hempty, hfold⟩ | ⟨hne, w, hfold, hwmem, hwleast⟩
  · refine ⟨?_, ?_, ?_⟩
    · rw [hmmr, hfold]
      simp [hempty]
    · intro v hv
      rw [hmmr, hfold] at hv
      exact absurd hv (by simp)
    · intro h
      exact absurd hempty h
  · refine ⟨?_, ?_, ?_⟩
    · rw [hmmr, hfold]
      simp [hne]
    · intro v hv
      rw [hmmr, hfold, Option.some.injEq] at hv
      subst hv
      exact ⟨hwmem, hwleast⟩
    · intro _
      have hwcounts : some w ∈ counts := (hvmem w).mp hwmem
      have hwlt : w < u32Max := hmax w hwcounts
      have hbucket : ∃ b ∈ (analyze_exclusivity counts names).mismatch_histogram,
          b.mismatches = w := by
        rw [hhr, p3 w hwlt, hkeys w, hmapfst]
        exact hwcounts
      obtain ⟨bw, hbw, hbwm⟩ := hbucket
      cases hh : (analyze_exclusivity counts names).mismatch_histogram with
      | nil => rw [hh] at hbw; exact absurd hbw (List.not_mem_nil _)
      | cons b0 t =>
          refine ⟨b0, rfl, ?_⟩
          have hsortedkeys : (b0.mismatches :: t.map (fun b => b.mismatches)).Sorted
              (· ≤ ·) := by
            rw [← List.map_cons, ← hh, hhr]
            exact p1
          have hle : b0.mismatches ≤ w := by
            rw [hh] at hbw
            rcases List.mem_cons.mp hbw with rfl | hbw'
            · exact le_of_eq hbwm
            · rw [← hbwm]
              exact List.rel_of_sorted_cons hsortedkeys bw.mismatches
                (List.mem_map.mpr ⟨bw, hbw', rfl⟩)
          have hge : w ≤ b0.mismatches := by
            by_cases hb0max : b0.mismatches = u32Max
            · omega
            · have hb0lt : b0.mismatches < u32Max := by
                have hmem0 : b0 ∈ (analyze_exclusivity counts names).mismatch_histogram := by
                  rw [hh]; exact List.mem_cons_self ..
                rw [hhr] at hmem0
                rcases Nat.lt_or_ge b0.mismatches u32Max with h | h
                · exact h
                · have : b0.mismatches ∈ ((exclGo (counts.zip names) [] 0 "" none).1).map
                      (fun b => b.1) ∨ b0.mismatches = u32Max := by
                    by_cases hx : b0.mismatches < u32Max
                    · omega
                    · right
                      by_contra hne'
                      have := p4 b0 hmem0 (by omega)
                      exact hne' (by omega)
                  rcases this with hmem' | heq
                  · exact absurd (hmaxB _ hmem') (by omega)
                  · exact absurd heq hb0max
              have hmem0 : b0 ∈ (analyze_exclusivity counts names).mismatch_histogram := by
                rw [hh]; exact List.mem_cons_self ..
              rw [hhr] at hmem0
              have hb0B := p4 b0 hmem0 hb0lt
              have hb0keys : b0.mismatches ∈ ((exclGo (counts.zip names) [] 0 "" none).1).map
                  (fun b => b.1) :=
                List.mem_map.mpr ⟨(b0.mismatches, b0.count, b0.example_name), hb0B, rfl⟩
              have hb0counts : some b0.mismatches ∈ counts := by
                have := (hkeys b0.mismatches).mp hb0keys
                rwa [hmapfst] at this
              exact hwleast b0.mismatches ((hvmem b0.mismatches).mpr hb0counts)
          rw [hmmr, hfold]
          congr 1
          omega

/-- Witness for C7 at a concrete exclusivity input where sequences matched
with 3 and 1 mismatches and one did not match. -/
theorem c7_witness :
    ∃ b, (analyze_exclusivity [some 3, none, some 1]
        ["a", "b", "c"]).mismatch_histogram.head? = some b ∧
      (analyze_exclusivity [some 3, none, some 1]
        ["a", "b", "c"]).min_mismatches = some b.mismatches :=
  (c7_min_mismatches [some 3, none, some 1] ["a", "b", "c"] (by decide)
    (by intro m hm; simp [u32Max] at hm ⊢; omega)).2.2 (by decide)

/-- Order used at `screener.rs` line 195: `sort_by_key(|r| r.position)`. -/
def posLE (a b : PositionResult) : Prop := a.position ≤ b.position

instance : DecidableRel posLE := fun a b => Nat.decLe a.position b.position

instance : IsTotal PositionResult posLE := ⟨fun a b => Nat.le_total a.position b.position⟩

instance : IsTrans PositionResult posLE := ⟨fun _ _ _ h h' => Nat.le_trans h h'⟩

/-- The `format!("Length {}/{}: Position {}/{}", ...)` string of
`screener.rs` lines 173-179. -/
def mkProgressMessage (lengthIdx totalLengths completed totalPositions : Nat) : String :=
  "Length " ++ Nat.repr (lengthIdx + 1) ++ "/" ++ Nat.repr totalLengths ++
    ": Position " ++ Nat.repr completed ++ "/" ++ Nat.repr totalPositions

/-- The `ProgressUpdate` built at `screener.rs` lines 167-180 for the
`completed`-th completion. -/
def mkProgressUpdate (oligoLength position totalPositions lengthIdx totalLengths
    completed : Nat) : ProgressUpdate :=
  { current_length := oligoLength
    current_position := position
    total_positions := totalPositions
    lengths_completed := lengthIdx
    total_lengths := totalLengths
    message := mkProgressMessage lengthIdx totalLengths completed totalPositions }

/-- The per-position body of the parallel map in `analyze_length`
(`screener.rs` lines 140-190): run `analyze_window`, optionally run
`analyze_exclusivity` on the same window (`exclMatcher` abstracts
`collect_mismatch_counts_with_aligner` applied to the exclusivity set), and
build the `PositionResult` with `variants_needed` duplicated from
`analysis.variants_for_threshold` (lines 184-189).  A window whose slice is
out of bounds propagates the panic (`none`). -/
def analyzePosition (matcher : List Nat → List String × Nat)
    (analyzer : List String → WindowAnalysisResult)
    (exclMatcher : Option (List Nat → List (Option Nat))) (exclNames : List String)
    (templateBytes : List Nat) (refCount : Nat) (threshold : ℚ)
    (oligoLength position : Nat) : Option PositionResult :=
  match analyze_window matcher analyzer templateBytes refCount threshold
      position oligoLength with
  | none => none
  | some analysis =>
      some { position := position
             variants_needed := analysis.variants_for_threshold
             analysis := analysis
             exclusivity := exclMatcher.bind (fun em =>
               (listSlice templateBytes position oligoLength).map
                 (fun oligo => analyze_exclusivity (em oligo) exclNames)) }

/-- The completion loop of `analyze_length`: positions are consumed in the
(scheduler-dependent) completion order, the shared atomic counter is
incremented once per completed position (`screener.rs` line 164), and a
progress event is emitted when a sender is attached and the completion
count is a multiple of 10 or the final one (line 166).  The first `none`
models a panicking position. -/
def lengthGo (matcher : List Nat → List String × Nat)
    (analyzer : List String → WindowAnalysisResult)
    (exclMatcher : Option (List Nat → List (Option Nat))) (exclNames : List String)
    (templateBytes : List Nat) (refCount : Nat) (threshold : ℚ)
    (oligoLength lengthIdx totalLengths totalPositions : Nat)
    (progressAttached : Bool) :
    List Nat → Nat → Option (List PositionResult × List ProgressUpdate)
  | [], _ => some ([], [])
  | position :: rest, completedSoFar =>
      match analyzePosition matcher analyzer exclMatcher exclNames templateBytes
          refCount threshold oligoLength position with
      | none => none
      | some pr =>
          match lengthGo matcher analyzer exclMatcher exclNames templateBytes
              refCount threshold oligoLength lengthIdx totalLengths totalPositions
              progressAttached rest (completedSoFar + 1) with
          | none => none
          | some (prs, es) =>
              some (pr :: prs,
                (if progressAttached &&
                    ((completedSoFar + 1) % 10 == 0 ||
                      (completedSoFar + 1) == totalPositions) then
                  [mkProgressUpdate oligoLength position totalPositions lengthIdx
                    totalLengths (completedSoFar + 1)]
                else []) ++ es)

/-- `analyze_length` (`screener.rs` lines 99-201).  The position list is
derived from the template length, oligo length and resolution (lines
110-121); the parallel sweep is modelled by the explicit completion order
`order` (rayon's `collect` preserves input order, but completion timing —
and hence the progress counter — is scheduler-dependent; a faithful run
instantiates `order` with a permutation of the position list); the collected
results are finally sorted by position (line 195). -/
def analyze_length (matcher : List Nat → List String × Nat)
    (analyzer : List String → WindowAnalysisResult)
    (exclMatcher : Option (List Nat → List (Option Nat))) (exclNames : List String)
    (templateBytes : List Nat) (refCount : Nat) (threshold : ℚ)
    (oligoLength resolution lengthIdx totalLengths : Nat)
    (progressAttached : Bool) (order : List Nat) :
    Option (LengthResult × List ProgressUpdate) :=
  match lengthGo matcher analyzer exclMatcher exclNames templateBytes refCount
      threshold oligoLength lengthIdx totalLengths
      (positionsFor (maxStart templateBytes.length oligoLength) resolution).length
      progressAttached order 0 with
  | none => none
  | some (prs, evs) =>
      some ({ oligo_length := oligoLength,
              positions := List.insertionSort posLE prs }, evs)

/-- Claim C6 (code bug at the degenerate window): every requested position —
including the degenerate single position 0 produced when the template is
shorter than the oligo length — must yield a `PositionResult`, but there
`analyze_window` slices `template_bytes[position..position + length]` past
the end of the template, which panics in Rust (modelled as `none`): for a
4-base template and oligo length 10 the requested position list is `[0]`,
yet the per-length computation fails instead of producing one result per
requested position. -/
theorem c6_degenerate_window_fails :
    positionsFor (maxStart 4 10) 1 = [0] ∧
    ∀ (matcher : List Nat → List String × Nat)
      (analyzer : List String → WindowAnalysisResult),
      analyze_length matcher analyzer none [] [65, 67, 71, 84] 1 95 10 1 0 1
        false (positionsFor (maxStart 4 10) 1) = none := by
  refine ⟨rfl, ?_⟩
  intro matcher analyzer
  rfl

/-- Claim C8: the positions list of every produced `LengthResult` is sorted
in ascending order of position index, whatever completion order the
parallel scheduler produced. -/
theorem c8_positions_sorted :
    ∀ (matcher : List Nat → List String × Nat)
      (analyzer : List String → WindowAnalysisResult)
      (exclMatcher : Option (List Nat → List (Option Nat))) (exclNames : List String)
      (templateBytes : List Nat) (refCount : Nat) (threshold : ℚ)
      (oligoLength resolution lengthIdx totalLengths : Nat)
      (progressAttached : Bool) (order : List Nat) (lr : LengthResult)
      (evs : List ProgressUpdate),
      analyze_length matcher analyzer exclMatcher exclNames templateBytes refCount
        threshold oligoLength resolution lengthIdx totalLengths progressAttached
        order = some (lr, evs) →
      lr.positions.Sorted posLE := by
  intro matcher analyzer exclMatcher exclNames templateBytes refCount threshold
    oligoLength resolution lengthIdx totalLengths progressAttached order lr evs heq
  rw [analyze_length] at heq
  cases hg : lengthGo matcher analyzer exclMatcher exclNames templateBytes refCount
      threshold oligoLength lengthIdx totalLengths
      (positionsFor (maxStart templateBytes.length oligoLength) resolution).length
      progressAttached order 0 with
  | none => rw [hg] at heq; exact absurd heq (by simp)
  | some pe =>
      obtain ⟨prs, evs'⟩ := pe
      rw [hg, Option.some.injEq] at heq
      have hlr : lr = ⟨oligoLength, List.insertionSort posLE prs⟩ :=
        (congrArg Prod.fst heq).symm
      rw [hlr]
      exact List.sorted_insertionSort posLE prs

theorem lengthGo_events (matcher : List Nat → List String × Nat)
    (analyzer : List String → WindowAnalysisResult)
    (exclMatcher : Option (List Nat → List (Option Nat))) (exclNames : List String)
    (templateBytes : List Nat) (refCount : Nat) (threshold : ℚ)
    (oligoLength lengthIdx totalLengths totalPositions : Nat) :
    ∀ (order : List Nat) (c : Nat) (prs : List PositionResult)
      (evs : List ProgressUpdate),
      lengthGo matcher analyzer exclMatcher exclNames templateBytes refCount
        threshold oligoLength lengthIdx totalLengths totalPositions true order c =
        some (prs, evs) →
      evs = ((List.enumFrom c order).filter
          (fun p => (p.1 + 1) % 10 == 0 || (p.1 + 1) == totalPositions)).map
        (fun p => mkProgressUpdate oligoLength p.2 totalPositions lengthIdx
          totalLengths (p.1 + 1)) := by
  intro order
  induction order with
  | nil =>
      intro c prs evs heq
      simp only [lengthGo, Option.some.injEq] at heq
      have : evs = [] := (congrArg Prod.snd heq).symm
      simp [this]
  | cons position rest ih =>
      intro c prs evs heq
      rw [lengthGo] at heq
      cases hap : analyzePosition matcher analyzer exclMatcher exclNames
          templateBytes refCount threshold oligoLength position with
      | none => rw [hap] at heq; exact absurd heq (by simp)
      | some pr =>
          rw [hap] at heq
          cases hg : lengthGo matcher analyzer exclMatcher exclNames templateBytes
              refCount threshold oligoLength lengthIdx totalLengths totalPositions
              true rest (c + 1) with
          | none => rw [hg] at heq; exact absurd heq (by simp)
          | some pe =>
              obtain ⟨prs', es⟩ := pe
              rw [hg, Option.some.injEq] at heq
              have hevs : evs = (if true &&
                  ((c + 1) % 10 == 0 || (c + 1) == totalPositions) then
                    [mkProgressUpdate oligoLength position totalPositions lengthIdx
                      totalLengths (c + 1)]
                  else []) ++ es :=
                (congrArg Prod.snd heq).symm
              have hes := ih (c + 1) prs' es hg
              rw [hevs, hes, List.enumFrom_cons, List.filter_cons]
              by_cases hcond : ((c + 1) % 10 == 0 || (c + 1) == totalPositions) = true
              · simp [hcond]
              · simp [hcond]

theorem lengthGo_no_events (matcher : List Nat → List String × Nat)
    (analyzer : List String → WindowAnalysisResult)
    (exclMatcher : Option (List Nat → List (Option Nat))) (exclNames : List String)
    (templateBytes : List Nat) (refCount : Nat) (threshold : ℚ)
    (oligoLength lengthIdx totalLengths totalPositions : Nat) :
    ∀ (order : List Nat) (c : Nat) (prs : List PositionResult)
      (evs : List ProgressUpdate),
      lengthGo matcher analyzer exclMatcher exclNames templateBytes refCount
        threshold oligoLength lengthIdx totalLengths totalPositions false order c =
        some (prs, evs) →
      evs = [] := by
  intro order
  induction order with
  | nil =>
      intro c prs evs heq
      simp only [lengthGo, Option.some.injEq] at heq
      exact (congrArg Prod.snd heq).symm
  | cons position rest ih =>
      intro c prs evs heq
      rw [lengthGo] at heq
      cases hap : analyzePosition matcher analyzer exclMatcher exclNames
          templateBytes refCount threshold oligoLength position with
      | none => rw [hap] at heq; exact absurd heq (by simp)
      | some pr =>
          rw [hap] at heq
          cases hg : lengthGo matcher analyzer exclMatcher exclNames templateBytes
              refCount threshold oligoLength lengthIdx totalLengths totalPositions
              false rest (c + 1) with
          | none => rw [hg] at heq; exact absurd heq (by simp)
          | some pe =>
              obtain ⟨prs', es⟩ := pe
              rw [hg, Option.some.injEq] at heq
              have hevs : evs = (if false &&
                  ((c + 1) % 10 == 0 || (c + 1) == totalPositions) then
                    [mkProgressUpdate oligoLength position totalPositions lengthIdx
                      totalLengths (c + 1)]
                  else []) ++ es :=
                (congrArg Prod.snd heq).symm
              rw [hevs, ih (c + 1) prs' es hg]
              simp

theorem lengthGo_results (matcher : List Nat → List String × Nat)
    (analyzer : List String → WindowAnalysisResult)
    (exclMatcher : Option (List Nat → List (Option Nat))) (exclNames : List String)
    (templateBytes : List Nat) (refCount : Nat) (threshold : ℚ)
    (oligoLength lengthIdx totalLengths totalPositions : Nat) (b b' : Bool) :
    ∀ (order : List Nat) (c c' : Nat),
      Option.map Prod.fst (lengthGo matcher analyzer exclMatcher exclNames
        templateBytes refCount threshold oligoLength lengthIdx totalLengths
        totalPositions b order c) =
      Option.map Prod.fst (lengthGo matcher analyzer exclMatcher exclNames
        templateBytes refCount threshold oligoLength lengthIdx totalLengths
        totalPositions b' order c') := by
  intro order
  induction order with
  | nil => intro c c'; simp [lengthGo]
  | cons position rest ih =>
      intro c c'
      rw [lengthGo, lengthGo]
      cases hap : analyzePosition matcher analyzer exclMatcher exclNames
          templateBytes refCount threshold oligoLength position with
      | none => rfl
      | some pr =>
          have hih := ih (c + 1) (c' + 1)
          cases hg : lengthGo matcher analyzer exclMatcher exclNames templateBytes
              refCount threshold oligoLength lengthIdx totalLengths totalPositions
              b rest (c + 1) with
          | none =>
              rw [hg] at hih
              cases hg' : lengthGo matcher analyzer exclMatcher exclNames
                  templateBytes refCount threshold oligoLength lengthIdx
                  totalLengths totalPositions b' rest (c' + 1) with
              | none => simp
              | some pe' => rw [hg'] at hih; simp at hih
          | some pe =>
              rw [hg] at hih
              cases hg' : lengthGo matcher analyzer exclMatcher exclNames
                  templateBytes refCount threshold oligoLength lengthIdx
                  totalLengths totalPositions b' rest (c' + 1) with
              | none => rw [hg'] at hih; simp at hih
              | some pe' =>
                  rw [hg'] at hih
                  obtain ⟨prs, es⟩ := pe
                  obtain ⟨prs', es'⟩ := pe'
                  simp at hih
                  simp [hih]

/-- Claim C9: with a progress sender attached, an event is emitted for the
k-th completed position exactly when k is a multiple of 10 or k equals the
total number of positions for the current length (the event list equals the
filter of the enumerated completion order by that condition); without a
sender no events are emitted and the produced `LengthResult` is identical —
progress events carry no correctness obligation (send failures are ignored
by `let _ = tx.send(...)`). -/
theorem c9_progress_events :
    ∀ (matcher : List Nat → List String × Nat)
      (analyzer : List String → WindowAnalysisResult)
      (exclMatcher : Option (List Nat → List (Option Nat))) (exclNames : List String)
      (templateBytes : List Nat) (refCount : Nat) (threshold : ℚ)
      (oligoLength resolution lengthIdx totalLengths : Nat) (order : List Nat)
      (lr lr' : LengthResult) (evs evs' : List ProgressUpdate),
      analyze_length matcher analyzer exclMatcher exclNames templateBytes refCount
        threshold oligoLength resolution lengthIdx totalLengths true order =
        some (lr, evs) →
      analyze_length matcher analyzer exclMatcher exclNames templateBytes refCount
        threshold oligoLength resolution lengthIdx totalLengths false order =
        some (lr', evs') →
      (evs = ((List.enumFrom 0 order).filter
          (fun p => (p.1 + 1) % 10 == 0 || (p.1 + 1) ==
            (positionsFor (maxStart templateBytes.length oligoLength)
              resolution).length)).map
        (fun p => mkProgressUpdate oligoLength p.2
          (positionsFor (maxStart templateBytes.length oligoLength)
            resolution).length lengthIdx totalLengths (p.1 + 1))) ∧
      lr' = lr ∧ evs' = [] := by
  intro matcher analyzer exclMatcher exclNames templateBytes refCount threshold
    oligoLength resolution lengthIdx totalLengths order lr lr' evs evs' heqT heqF
  rw [analyze_length] at heqT heqF
  cases hgT : lengthGo matcher analyzer exclMatcher exclNames templateBytes
      refCount threshold oligoLength lengthIdx totalLengths
      (positionsFor (maxStart templateBytes.length oligoLength) resolution).length
      true order 0 with
  | none => rw [hgT] at heqT; exact absurd heqT (by simp)
  | some peT =>
      obtain ⟨prsT, evsT⟩ := peT
      rw [hgT, Option.some.injEq] at heqT
      cases hgF : lengthGo matcher analyzer exclMatcher exclNames templateBytes
          refCount threshold oligoLength lengthIdx totalLengths
          (positionsFor (maxStart templateBytes.length oligoLength) resolution).length
          false order 0 with
      | none => rw [hgF] at heqF; exact absurd heqF (by simp)
      | some peF =>
          obtain ⟨prsF, evsF⟩ := peF
          rw [hgF, Option.some.injEq] at heqF
          have hprs : prsT = prsF := by
            have h := lengthGo_results matcher analyzer exclMatcher exclNames
              templateBytes refCount threshold oligoLength lengthIdx totalLengths
              (positionsFor (maxStart templateBytes.length oligoLength)
                resolution).length true false order 0 0
            rw [hgT, hgF] at h
            simpa using h
          obtain ⟨hlT, heT⟩ := Prod.mk.injEq .. |>.mp heqT
          obtain ⟨hlF, heF⟩ := Prod.mk.injEq .. |>.mp heqF
          refine ⟨?_, ?_, ?_⟩
          · rw [← heT]
            exact lengthGo_events matcher analyzer exclMatcher exclNames
              templateBytes refCount threshold oligoLength lengthIdx totalLengths
              (positionsFor (maxStart templateBytes.length oligoLength)
                resolution).length order 0 prsT evsT hgT
          · rw [← hlT, ← hlF, hprs]
          · rw [← heF]
            exact lengthGo_no_events matcher analyzer exclMatcher exclNames
              templateBytes refCount threshold oligoLength lengthIdx totalLengths
              (positionsFor (maxStart templateBytes.length oligoLength)
                resolution).length order 0 prsF evsF hgF

theorem analyzePosition_needed (matcher : List Nat → List String × Nat)
    (analyzer : List String → WindowAnalysisResult)
    (exclMatcher : Option (List Nat → List (Option Nat))) (exclNames : List String)
    (templateBytes : List Nat) (refCount : Nat) (threshold : ℚ)
    (oligoLength position : Nat) (pr : PositionResult)
    (h : analyzePosition matcher analyzer exclMatcher exclNames templateBytes
      refCount threshold oligoLength position = some pr) :
    pr.variants_needed = pr.analysis.variants_for_threshold := by
  rw [analyzePosition] at h
  cases haw : analyze_window matcher analyzer templateBytes refCount threshold
      position oligoLength with
  | none => rw [haw] at h; exact absurd h (by simp)
  | some analysis =>
      rw [haw, Option.some.injEq] at h
      rw [← h]

theorem lengthGo_needed (matcher : List Nat → List String × Nat)
    (analyzer : List String → WindowAnalysisResult)
    (exclMatcher : Option (List Nat → List (Option Nat))) (exclNames : List String)
    (templateBytes : List Nat) (refCount : Nat) (threshold : ℚ)
    (oligoLength lengthIdx totalLengths totalPositions : Nat) (flag : Bool) :
    ∀ (order : List Nat) (c : Nat) (prs : List PositionResult)
      (evs : List ProgressUpdate),
      lengthGo matcher analyzer exclMatcher exclNames templateBytes refCount
        threshold oligoLength lengthIdx totalLengths totalPositions flag order c =
        some (prs, evs) →
      ∀ pr ∈ prs, pr.variants_needed = pr.analysis.variants_for_threshold := by
  intro order
  induction order with
  | nil =>
      intro c prs evs heq
      simp only [lengthGo, Option.some.injEq] at heq
      have : prs = [] := (congrArg Prod.fst heq).symm
      simp [this]
  | cons position rest ih =>
      intro c prs evs heq
      rw [lengthGo] at heq
      cases hap : analyzePosition matcher analyzer exclMatcher exclNames
          templateBytes refCount threshold oligoLength position with
      | none => rw [hap] at heq; exact absurd heq (by simp)
      | some pr0 =>
          rw [hap] at heq
          cases hg : lengthGo matcher analyzer exclMatcher exclNames templateBytes
              refCount threshold oligoLength lengthIdx totalLengths totalPositions
              flag rest (c + 1) with
          | none => rw [hg] at heq; exact absurd heq (by simp)
          | some pe =>
              obtain ⟨prs', es⟩ := pe
              rw [hg, Option.some.injEq] at heq
              have hprs : prs = pr0 :: prs' := (congrArg Prod.fst heq).symm
              intro pr hpr
              rw [hprs] at hpr
              rcases List.mem_cons.mp hpr with rfl | hpr'
              · exact analyzePosition_needed matcher analyzer exclMatcher exclNames
                  templateBytes refCount threshold oligoLength position pr hap
              · exact ih (c + 1) prs' es hg pr hpr'

/-- Claim C10: `variants_needed` always equals
`analysis.variants_for_threshold`: every `PositionResult` constructed during
screening satisfies the equality, and the viewer-side recomputation
preserves it (rewriting both fields to the same value and leaving skipped
windows untouched). -/
theorem c10_variants_needed_sync :
    (∀ (matcher : List Nat → List String × Nat)
        (analyzer : List String → WindowAnalysisResult)
        (exclMatcher : Option (List Nat → List (Option Nat))) (exclNames : List String)
        (templateBytes : List Nat) (refCount : Nat) (threshold : ℚ)
        (oligoLength resolution lengthIdx totalLengths : Nat)
        (progressAttached : Bool) (order : List Nat) (lr : LengthResult)
        (evs : List ProgressUpdate),
        analyze_length matcher analyzer exclMatcher exclNames templateBytes refCount
          threshold oligoLength resolution lengthIdx totalLengths progressAttached
          order = some (lr, evs) →
        ∀ pr ∈ lr.positions,
          pr.variants_needed = pr.analysis.variants_for_threshold) ∧
    (∀ (threshold : ℚ) (results : List LengthResult),
        (∀ lr ∈ results, ∀ pr ∈ lr.positions,
          pr.variants_needed = pr.analysis.variants_for_threshold) →
        ∀ lr' ∈ recalculate_coverage_threshold threshold results,
          ∀ pr' ∈ lr'.positions,
            pr'.variants_needed = pr'.analysis.variants_for_threshold) := by
  constructor
  · intro matcher analyzer exclMatcher exclNames templateBytes refCount threshold
      oligoLength resolution lengthIdx totalLengths progressAttached order lr evs heq
    rw [analyze_length] at heq
    cases hg : lengthGo matcher analyzer exclMatcher exclNames templateBytes
        refCount threshold oligoLength lengthIdx totalLengths
        (positionsFor (maxStart templateBytes.length oligoLength) resolution).length
        progressAttached order 0 with
    | none => rw [hg] at heq; exact absurd heq (by simp)
    | some pe =>
        obtain ⟨prs, evs'⟩ := pe
        rw [hg, Option.some.injEq] at heq
        have hlr : lr = ⟨oligoLength, List.insertionSort posLE prs⟩ :=
          (congrArg Prod.fst heq).symm
        intro pr hpr
        rw [hlr] at hpr
        have hpr' : pr ∈ prs := by
          have := (List.mem_insertionSort posLE).mp hpr
          exact this
        exact lengthGo_needed matcher analyzer exclMatcher exclNames templateBytes
          refCount threshold oligoLength lengthIdx totalLengths
          (positionsFor (maxStart templateBytes.length oligoLength) resolution).length
          progressAttached order 0 prs evs' hg pr hpr'
  · intro threshold results hinv lr' hlr' pr' hpr'
    rw [recalculate_coverage_threshold] at hlr'
    obtain ⟨lr, hlr, rfl⟩ := List.mem_map.mp hlr'
    simp only [] at hpr'
    obtain ⟨pr, hpr, rfl⟩ := List.mem_map.mp hpr'
    rw [recalcWindow]
    by_cases hsk : pr.analysis.skipped
    · rw [if_pos hsk]
      exact hinv lr hlr pr hpr
    · rw [if_neg hsk]

/-- Witness for C8 at a concrete run over a 3-base template with oligo
length 2 (positions 0 and 1, one reference matching everywhere). -/
theorem c8_witness :
    (⟨2, [⟨0, 0, { WindowAnalysisResult.base with total_sequences := 1, sequences_analyzed := 1, no_match_count := 0 }, none⟩, ⟨1, 0, { WindowAnalysisResult.base with total_sequences := 1, sequences_analyzed := 1, no_match_count := 0 }, none⟩]⟩ : LengthResult).positions.Sorted posLE :=
  c8_positions_sorted (fun _ => (["A"], 0)) (fun _ => WindowAnalysisResult.base)
    none [] [1, 2, 3] 1 95 2 1 0 1 true [0, 1]
    ⟨2, [⟨0, 0, { WindowAnalysisResult.base with total_sequences := 1, sequences_analyzed := 1, no_match_count := 0 }, none⟩, ⟨1, 0, { WindowAnalysisResult.base with total_sequences := 1, sequences_analyzed := 1, no_match_count := 0 }, none⟩]⟩
    [mkProgressUpdate 2 1 2 0 1 2] (by decide)

/-- Witness for C9 at the same concrete run: with two positions the only
event is the final completion (count 2 = total), and the result is the same
with or without a sender. -/
theorem c9_witness :
    ([mkProgressUpdate 2 1 2 0 1 2] = ((List.enumFrom 0 ([0, 1] : List Nat)).filter
        (fun p => (p.1 + 1) % 10 == 0 || (p.1 + 1) ==
          (positionsFor (maxStart ([1, 2, 3] : List Nat).length 2) 1).length)).map
      (fun p => mkProgressUpdate 2 p.2
        (positionsFor (maxStart ([1, 2, 3] : List Nat).length 2) 1).length 0 1
        (p.1 + 1))) ∧
    (⟨2, [⟨0, 0, { WindowAnalysisResult.base with total_sequences := 1, sequences_analyzed := 1, no_match_count := 0 }, none⟩, ⟨1, 0, { WindowAnalysisResult.base with total_sequences := 1, sequences_analyzed := 1, no_match_count := 0 }, none⟩]⟩ : LengthResult) =
      ⟨2, [⟨0, 0, { WindowAnalysisResult.base with total_sequences := 1, sequences_analyzed := 1, no_match_count := 0 }, none⟩, ⟨1, 0, { WindowAnalysisResult.base with total_sequences := 1, sequences_analyzed := 1, no_match_count := 0 }, none⟩]⟩ ∧
    ([] : List ProgressUpdate) = [] :=
  c9_progress_events (fun _ => (["A"], 0)) (fun _ => WindowAnalysisResult.base)
    none [] [1, 2, 3] 1 95 2 1 0 1 [0, 1]
    ⟨2, [⟨0, 0, { WindowAnalysisResult.base with total_sequences := 1, sequences_analyzed := 1, no_match_count := 0 }, none⟩, ⟨1, 0, { WindowAnalysisResult.base with total_sequences := 1, sequences_analyzed := 1, no_match_count := 0 }, none⟩]⟩
    ⟨2, [⟨0, 0, { WindowAnalysisResult.base with total_sequences := 1, sequences_analyzed := 1, no_match_count := 0 }, none⟩, ⟨1, 0, { WindowAnalysisResult.base with total_sequences := 1, sequences_analyzed := 1, no_match_count := 0 }, none⟩]⟩
    [mkProgressUpdate 2 1 2 0 1 2] [] (by decide) (by decide)

/-- Witness for C10: the duplicated field agrees on a freshly screened
position and after a viewer-side recomputation of a stored position. -/
theorem c10_witness :
    (⟨0, 0, { WindowAnalysisResult.base with total_sequences := 1, sequences_analyzed := 1, no_match_count := 0 }, none⟩ : PositionResult).variants_needed =
      (⟨0, 0, { WindowAnalysisResult.base with total_sequences := 1, sequences_analyzed := 1, no_match_count := 0 }, none⟩ : PositionResult).analysis.variants_for_threshold ∧
    (recalcWindow 95 ⟨5, 0, WindowAnalysisResult.base, none⟩).variants_needed =
      (recalcWindow 95 ⟨5, 0, WindowAnalysisResult.base, none⟩).analysis.variants_for_threshold := by
  constructor
  · exact c10_variants_needed_sync.1 (fun _ => (["A"], 0))
      (fun _ => WindowAnalysisResult.base) none [] [1, 2, 3] 1 95 2 1 0 1 true [0, 1]
      ⟨2, [⟨0, 0, { WindowAnalysisResult.base with total_sequences := 1, sequences_analyzed := 1, no_match_count := 0 }, none⟩, ⟨1, 0, { WindowAnalysisResult.base with total_sequences := 1, sequences_analyzed := 1, no_match_count := 0 }, none⟩]⟩
      [mkProgressUpdate 2 1 2 0 1 2] (by decide)
      ⟨0, 0, { WindowAnalysisResult.base with total_sequences := 1, sequences_analyzed := 1, no_match_count := 0 }, none⟩ (by decide)
  · exact c10_variants_needed_sync.2 95 [⟨2, [⟨5, 0, WindowAnalysisResult.base, none⟩]⟩]
      (by decide) ⟨2, [recalcWindow 95 ⟨5, 0, WindowAnalysisResult.base, none⟩]⟩
      (by decide) (recalcWindow 95 ⟨5, 0, WindowAnalysisResult.base, none⟩) (by decide)
